import Mathlib

/-!
Verification of the mask-synthesis engine (`lensless/hardware/mask.py`): shallow
embedding of the mask lifecycle, coded-aperture pattern generation, multi-lens
placement, phase retrieval and the associated claims.

External collaborators (numpy's global random generator, the wave-propagation
primitives `fresnel_conv` / `angular_spectrum`, the `resize` primitive, scipy's
`max_len_seq` and the shot-noise model) are modelled as explicit parameters or
as minimal stand-ins, per the spec's external-interface section.  Machine
floats are modelled as rationals (exact arithmetic) and real-valued results
(square roots, phases) live in `ℝ`.
-/

namespace LenslessMask

/-! ## Phase retrieval (`phase_retrieval`, mask.py lines 518-561)

The propagation primitive `fresnel_conv`, `np.angle`, `np.exp(1j*·)`,
`np.sqrt` and complex multiplication are external to the core and are taken as
abstract operations on an abstract field type `α`; phases live in an abstract
type `φ`.  The loop structure, the variable that is assigned only inside the
loop body, and the final wrap/height-map step are embedded faithfully. -/

structure PRPrims (α φ : Type) where
  fresnel : α → ℚ → ℚ → ℚ → α
  angle : α → φ
  expI : φ → α
  sqrtA : α → α
  mulA : α → α → α
  wrap : φ → φ
  height : ℚ → ℚ → φ → φ

/-- Bounded for-loop: `pr_iter step k s` runs `step` `k` times starting from `s`. -/
def pr_iter {σ : Type} (step : σ → σ) : ℕ → σ → σ
  | 0, s => s
  | k+1, s => pr_iter step k (step s)

/-- Embedding of `phase_retrieval`.  The Python local `M_phi` is assigned only
inside the `for` loop body; reading it after a loop that executed zero times
raises `UnboundLocalError`, which the embedding models with an `Option`
component that starts out `none` and an `Except.error` result. -/
def phase_retrieval {α φ : Type} (P : PRPrims α φ) (target_psf : α)
    (wv d1 dz n : ℚ) (n_iter : ℕ) (height_map : Bool) :
    Except String (φ × Option φ) :=
  let M_p0 := P.sqrtA target_psf
  let step : α × Option α → α × Option α := fun s =>
    let M_phi := P.fresnel s.1 wv d1 (-dz)
    let M_phi := P.expI (P.angle M_phi)
    let M_p := P.fresnel M_phi wv d1 dz
    let M_p := P.mulA (P.sqrtA target_psf) (P.expI (P.angle M_p))
    (M_p, some M_phi)
  let s := pr_iter step n_iter (M_p0, none)
  match s.2 with
  | none => .error "UnboundLocalError: local variable M_phi referenced before assignment"
  | some M_phi =>
    let phi := P.wrap (P.angle M_phi)
    if height_map then .ok (phi, some (P.height wv n phi)) else .ok (phi, none)

/-! ## Global random generator model (`numpy.random`, external)

Modelled from the spec: the process-wide generator is external to the core.
`np_random_seed` resets the global state to the given seed; each draw returns a
value that is a function of the current state and advances the state.  The only
facts the claims rely on are exactly these two: a draw is determined by the
state, and distinct states may yield distinct draws. -/

def np_random_seed (seed : ℕ) : ℕ := seed

def np_random_draw (state : ℕ) : ℕ × ℕ := (state, state + 1)

def np_random_draws : ℕ → ℕ → List ℕ × ℕ
  | 0, g => ([], g)
  | k+1, g =>
    let v := np_random_draw g
    let r := np_random_draws k v.2
    (v.1 :: r.1, r.2)

/-- Random branch of `MultiLensArray.__init__` (mask.py lines 365-369) followed
by the placement draws of `create_mask`: the constructor first calls
`np.random.seed(self.seed)` (discarding the incoming global state `g`), then
draws the `N` radii and afterwards the placement coordinates from the global
stream.  Returns the drawn values together with the final global state. -/
def multi_lens_array_draws (seed N ndraw : ℕ) (g : ℕ) :
    (List ℕ × List ℕ) × ℕ :=
  let g0 := np_random_seed seed
  let r := np_random_draws N g0
  let c := np_random_draws ndraw r.2
  ((r.1, c.1), c.2)

/-- Random branch of `HeightVarying.__init__` / `create_mask`: seeds the global
generator with the instance seed, then draws the height-map values. -/
def height_varying_draws (seed npix : ℕ) (g : ℕ) : List ℕ × ℕ :=
  let g0 := np_random_seed seed
  np_random_draws npix g0

/-- Noise generation of `PhaseContour.create_mask` (mask.py lines 490-497):
`generate_perlin_noise_2d` consumes the process-wide generator, and the class
performs no seeding at all (it has no seed parameter); the draws therefore
start from whatever ambient global state `g` the process happens to be in. -/
def phase_contour_noise_draws (npix : ℕ) (g : ℕ) : List ℕ × ℕ :=
  np_random_draws npix g

/-! ## Mask dimension derivation (`Mask.__init__`, mask.py lines 79-104) -/

/-- Embedding of the `size` / `feature_size` derivation and checks of
`Mask.__init__`: exactly the code's control flow, with a failed `assert`
modelled as an error.  Returns the final `(size, feature_size)` pair. -/
def mask_init_dims (resolution : ℕ × ℕ) (size : Option (ℚ × ℚ))
    (feature_size : Option (ℚ × ℚ)) : Except String ((ℚ × ℚ) × (ℚ × ℚ)) :=
  if size = none ∧ feature_size = none then
    .error "Either sensor_size or feature_size should be specified"
  else
    let sz : ℚ × ℚ :=
      match size, feature_size with
      | none, some fs => (resolution.1 * fs.1, resolution.2 * fs.2)
      | some s, _ => s
      | none, none => (0, 0)
    match feature_size with
    | none =>
      let fs : ℚ × ℚ := (sz.1 / resolution.1, sz.2 / resolution.2)
      if resolution.1 * fs.1 ≤ sz.1 ∧ resolution.2 * fs.2 ≤ sz.2 then
        .ok (sz, fs)
      else .error "assert resolution * feature_size <= size"
    | some fs =>
      if 0 < fs.1 ∧ 0 < fs.2 then
        if resolution.1 * fs.1 ≤ sz.1 ∧ resolution.2 * fs.2 ≤ sz.2 then
          .ok (sz, fs)
        else .error "assert resolution * feature_size <= size"
      else .error "Feature size should be positive"

/-! ## Theorems for claims C1, C2, C3 -/

/-- C1: the claim states that `phase_retrieval` with `n_iter = 0` returns the
wrapped all-zero phase and a uniformly zero height map.  The code instead
fails: `M_phi` is assigned only inside the iteration loop, so with zero
iterations the final read of `M_phi` raises `UnboundLocalError` — for every
target PSF, wavelength, pitch, distance and refractive index, and whether or
not a height map is requested. -/
theorem phase_retrieval_zero_iter_error {α φ : Type} (P : PRPrims α φ)
    (target_psf : α) (wv d1 dz n : ℚ) (hm : Bool) :
    phase_retrieval P target_psf wv d1 dz n 0 hm =
      .error "UnboundLocalError: local variable M_phi referenced before assignment" :=
  rfl

/-- C2 (counterexample): PhaseContour's randomized synthesis is not a function
of its parameters alone — two constructions with identical parameters but
different ambient global generator states (for example, because an unrelated
construction drew from the generator in between) produce different noise
arrays, hence different target PSFs and fields. -/
theorem phase_contour_not_reproducible :
    (phase_contour_noise_draws 1 0).1 ≠ (phase_contour_noise_draws 1 1).1 := by
  decide

/-- C2 (amended): for the mask variants that take a seed — `MultiLensArray`
radius sampling and lens placement, and `HeightVarying` random height maps —
the constructor re-seeds the global generator before any draw, so every drawn
value (and hence every derived array) is a function of the seed and parameters
only, independent of the ambient global state; this does not extend to
`PhaseContour`, whose noise generation is unseeded. -/
theorem seeded_draws_independent_of_global_state (seed N ndraw npix g g' : ℕ) :
    (multi_lens_array_draws seed N ndraw g).1 =
      (multi_lens_array_draws seed N ndraw g').1 ∧
    (height_varying_draws seed npix g).1 = (height_varying_draws seed npix g').1 :=
  ⟨rfl, rfl⟩

/-- C3: with exactly one of `size` / `feature_size` supplied, `Mask.__init__`
derives the other elementwise (`size = resolution * feature_size`,
respectively `feature_size = size / resolution`), construction succeeds, and
the resulting pair satisfies `resolution * feature_size ≤ size` componentwise. -/
theorem mask_init_dims_exactly_one (res : ℕ × ℕ) (hr1 : 0 < res.1)
    (hr2 : 0 < res.2) :
    (∀ fs : ℚ × ℚ, 0 < fs.1 → 0 < fs.2 →
      mask_init_dims res none (some fs) =
          .ok ((res.1 * fs.1, res.2 * fs.2), fs) ∧
        (res.1 : ℚ) * fs.1 ≤ res.1 * fs.1 ∧ (res.2 : ℚ) * fs.2 ≤ res.2 * fs.2) ∧
    (∀ s : ℚ × ℚ,
      mask_init_dims res (some s) none =
          .ok (s, (s.1 / res.1, s.2 / res.2)) ∧
        (res.1 : ℚ) * (s.1 / res.1) ≤ s.1 ∧ (res.2 : ℚ) * (s.2 / res.2) ≤ s.2) := by
  have h1 : ((res.1 : ℚ)) ≠ 0 := Nat.cast_ne_zero.mpr hr1.ne'
  have h2 : ((res.2 : ℚ)) ≠ 0 := Nat.cast_ne_zero.mpr hr2.ne'
  constructor
  · intro fs hf1 hf2
    have e : mask_init_dims res none (some fs) =
        if 0 < fs.1 ∧ 0 < fs.2 then
          if (res.1 : ℚ) * fs.1 ≤ res.1 * fs.1 ∧ (res.2 : ℚ) * fs.2 ≤ res.2 * fs.2 then
            .ok ((res.1 * fs.1, res.2 * fs.2), fs)
          else .error "assert resolution * feature_size <= size"
        else .error "Feature size should be positive" := rfl
    rw [e, if_pos ⟨hf1, hf2⟩, if_pos ⟨le_refl _, le_refl _⟩]
    exact ⟨rfl, le_refl _, le_refl _⟩
  · intro s
    have c1 : (res.1 : ℚ) * (s.1 / res.1) = s.1 := by
      rw [← mul_div_assoc, mul_div_cancel_left₀ _ h1]
    have c2 : (res.2 : ℚ) * (s.2 / res.2) = s.2 := by
      rw [← mul_div_assoc, mul_div_cancel_left₀ _ h2]
    have e : mask_init_dims res (some s) none =
        if (res.1 : ℚ) * (s.1 / res.1) ≤ s.1 ∧ (res.2 : ℚ) * (s.2 / res.2) ≤ s.2 then
          .ok (s, (s.1 / res.1, s.2 / res.2))
        else .error "assert resolution * feature_size <= size" := rfl
    rw [e, if_pos ⟨c1.le, c2.le⟩]
    exact ⟨rfl, c1.le, c2.le⟩

/-- C3 witness: a concrete instantiation, a 2×3 sensor with a supplied
feature size and with a supplied size. -/
theorem mask_init_dims_exactly_one_witness :
    (0 < 2 ∧ 0 < 3) ∧
      (mask_init_dims (2, 3) none (some (1/2, 1/2)) =
          .ok ((2 * (1/2 : ℚ), 3 * (1/2 : ℚ)), (1/2, 1/2)) ∧
        (2 : ℚ) * (1/2) ≤ 2 * (1/2) ∧ (3 : ℚ) * (1/2) ≤ 3 * (1/2)) ∧
      (mask_init_dims (2, 3) (some (4, 6)) none =
          .ok ((4, 6), ((4 : ℚ) / 2, (6 : ℚ) / 3)) ∧
        (2 : ℚ) * (4 / 2) ≤ 4 ∧ (3 : ℚ) * (6 / 3) ≤ 6) := by
  have h := mask_init_dims_exactly_one (2, 3) (by decide) (by decide)
  exact ⟨⟨by decide, by decide⟩, h.1 (1/2, 1/2) (by norm_num) (by norm_num), h.2 (4, 6)⟩

/-! ## Coded aperture: MURA primality check and square pattern
(`CodedAperture.is_prime` lines 229-240, `CodedAperture.squarepattern` lines
242-260; `sympy.ntheory.quadratic_residues` is the set of values `x*x % p`). -/

/-- Embedding of `CodedAperture.is_prime`: an evenness shortcut followed by
trial division by the odd numbers `3, 5, …` up to `int(sqrt(n))` (the float
square root truncates to `Nat.sqrt` for the sizes at hand). -/
def is_prime (n : ℕ) : Bool :=
  if n % 2 = 0 ∧ n > 2 then false
  else
    ((List.range (Nat.sqrt n + 1)).filter (fun i => decide (3 ≤ i ∧ i % 2 = 1))).all
      (fun i => decide (n % i ≠ 0))

/-- Embedding of `sympy.ntheory.quadratic_residues p`: the set of residues
`x*x % p` for `x` modulo `p` (it contains `0`). -/
def quadratic_residues (p : ℕ) : Finset ℕ :=
  (Finset.range p).filter (fun a => ∃ x ∈ Finset.range p, x * x % p = a)

/-- Single entry of the MURA square pattern array `A` of
`CodedAperture.squarepattern`: `A[1:,0] = 1`, row 0 is left at `0`, and the
inner cell `(i, j)` with `i, j ≥ 1` is `1` exactly when the
quadratic-residue memberships of `i-1` and `j-1` agree. -/
def squarepattern_entry (p i j : ℕ) : ℕ :=
  if j = 0 then (if 1 ≤ i then 1 else 0)
  else if i = 0 then 0
  else if ((i - 1 ∈ quadratic_residues p) ↔ (j - 1 ∈ quadratic_residues p)) then 1 else 0

/-- Embedding of `CodedAperture.squarepattern`: raises `ValueError` when
`is_prime` rejects `p`, otherwise returns the `p × p` pattern. -/
def squarepattern (p : ℕ) : Except String (ℕ → ℕ → ℕ) :=
  if ¬ is_prime p then .error "p is not a valid length. It must be prime."
  else .ok (squarepattern_entry p)

/-- Whether an `Except` result is a success (no exception raised). -/
def exceptOk {ε α : Type} : Except ε α → Bool
  | .ok _ => true
  | .error _ => false

/-- The trial-division test agrees with primality on every odd `n ≥ 3`. -/
lemma is_prime_iff_prime {p : ℕ} (hodd : p % 2 = 1) (h3 : 3 ≤ p) :
    is_prime p = true ↔ p.Prime := by
  have hcond : ¬ (p % 2 = 0 ∧ p > 2) := by omega
  have hall : is_prime p = true ↔
      ∀ i, i < Nat.sqrt p + 1 → 3 ≤ i ∧ i % 2 = 1 → p % i ≠ 0 := by
    unfold is_prime
    rw [if_neg hcond, List.all_eq_true]
    constructor
    · intro h i hi hcnd
      have := h i (by
        rw [List.mem_filter]
        exact ⟨List.mem_range.mpr hi, decide_eq_true hcnd⟩)
      exact of_decide_eq_true this
    · intro h i hi
      rw [List.mem_filter] at hi
      exact decide_eq_true (h i (List.mem_range.mp hi.1) (of_decide_eq_true hi.2))
  rw [hall]
  constructor
  · intro h
    by_contra hnp
    set q := p.minFac with hq
    have hqp : q.Prime := Nat.minFac_prime (by omega)
    have hqdvd : q ∣ p := Nat.minFac_dvd p
    have hq2 : q ≠ 2 := by
      intro h2
      have : p % 2 = 0 := Nat.mod_eq_zero_of_dvd (h2 ▸ hqdvd)
      omega
    have hqodd : q % 2 = 1 := Nat.odd_iff.mp (hqp.odd_of_ne_two hq2)
    have hq3 : 3 ≤ q := by
      have := hqp.two_le
      omega
    have hqsq : q * q ≤ p := by
      have := Nat.minFac_sq_le_self (by omega : 0 < p) hnp
      rwa [pow_two] at this
    have hqle : q ≤ Nat.sqrt p := Nat.le_sqrt.mpr hqsq
    exact h q (by omega) ⟨hq3, hqodd⟩ (Nat.mod_eq_zero_of_dvd hqdvd)
  · intro hp i hi hcnd hmod
    have hdvd : i ∣ p := Nat.dvd_of_mod_eq_zero hmod
    rcases hp.eq_one_or_self_of_dvd i hdvd with h1 | hip
    · omega
    · have : i ≤ Nat.sqrt p := by omega
      have hlt : Nat.sqrt p < p := Nat.sqrt_lt_self (by omega)
      omega

/-- C4 (counterexample): with `n_bits = 0` the MURA length is `p = 1`, which is
not prime, yet `is_prime(1)` returns `True` (the trial-division range is empty
and the evenness shortcut does not fire), so `squarepattern` raises no error. -/
theorem squarepattern_nbits_zero_no_error :
    ¬ (4 * 0 + 1).Prime ∧ exceptOk (squarepattern (4 * 0 + 1)) = true := by
  constructor
  · decide
  · rfl

/-- C4 (amended): for every `n_bits ≥ 1`, MURA construction succeeds (raises
no invalid-parameter error) if and only if `p = 4*n_bits + 1` is prime, with
primality decided by trial division up to `√p`; for `n_bits = 0` the
trial-division test wrongly accepts `p = 1`. -/
theorem squarepattern_error_iff_not_prime (n_bits : ℕ) (h : 1 ≤ n_bits) :
    exceptOk (squarepattern (4 * n_bits + 1)) = true ↔ (4 * n_bits + 1).Prime := by
  rw [← is_prime_iff_prime (by omega) (by omega)]
  unfold squarepattern
  rcases hip : is_prime (4 * n_bits + 1) with _ | _
  · rw [if_pos Bool.false_ne_true]
    simp [exceptOk]
  · rw [if_neg (fun hc => hc rfl)]
    simp [exceptOk]

/-- C4 witness: at `n_bits = 1` the length `p = 5` is prime and construction
succeeds. -/
theorem squarepattern_error_iff_not_prime_witness :
    1 ≤ 1 ∧ (exceptOk (squarepattern (4 * 1 + 1)) = true ↔ (4 * 1 + 1).Prime) :=
  ⟨le_refl 1, squarepattern_error_iff_not_prime 1 (le_refl 1)⟩

/-! ## C5: density of the MURA square pattern -/

/-- Number of ones in the `p × p` MURA square pattern produced by
`squarepattern` (counted before the `[1:, 1:]` trim and before upscaling). -/
def mura_ones (p : ℕ) : ℕ :=
  ((Finset.range p ×ˢ Finset.range p).filter
    (fun ij => squarepattern_entry p ij.1 ij.2 = 1)).card

/-- Membership in the embedded residue set coincides with being a square in
`ZMod p`. -/
lemma mem_quadratic_residues {p a : ℕ} [NeZero p] (ha : a < p) :
    a ∈ quadratic_residues p ↔ IsSquare (a : ZMod p) := by
  unfold quadratic_residues
  rw [Finset.mem_filter]
  constructor
  · rintro ⟨-, x, hx, hxa⟩
    refine ⟨(x : ZMod p), ?_⟩
    rw [← hxa, ZMod.natCast_mod]
    push_cast
    ring
  · rintro ⟨z, hz⟩
    refine ⟨Finset.mem_range.mpr ha, z.val, Finset.mem_range.mpr (ZMod.val_lt z), ?_⟩
    rw [← ZMod.val_mul, ← hz, ZMod.val_cast_of_lt ha]

/-- In `ZMod p` for `p` an odd prime, exactly `(p+1)/2` elements are squares
(the `(p-1)/2` nonzero squares together with `0`). -/
lemma card_squares (p : ℕ) [NeZero p] (hp : p.Prime) (hodd : p % 2 = 1) :
    (Finset.univ.image (fun z : ZMod p => z * z)).card = (p + 1) / 2 := by
  haveI := Fact.mk hp
  classical
  set T : Finset (ZMod p) := Finset.univ.image (fun z : ZMod p => z * z) with hT
  have h0T : (0 : ZMod p) ∈ T := by
    rw [hT]
    exact Finset.mem_image.mpr ⟨0, Finset.mem_univ 0, by ring⟩
  have key : p = ∑ b ∈ T, (Finset.univ.filter (fun z : ZMod p => z * z = b)).card := by
    have := Finset.card_eq_sum_card_fiberwise
      (f := fun z : ZMod p => z * z) (s := Finset.univ) (t := T)
      (fun x _ => Finset.mem_image_of_mem _ (Finset.mem_univ x))
    rw [← this, Finset.card_univ, ZMod.card p]
  have fib0 : (Finset.univ.filter (fun z : ZMod p => z * z = 0)).card = 1 := by
    have : (Finset.univ.filter (fun z : ZMod p => z * z = 0)) = {0} := by
      ext z
      simp [mul_self_eq_zero]
    rw [this, Finset.card_singleton]
  have h2ne : (2 : ZMod p) ≠ 0 := by
    have h2 : ((2 : ℕ) : ZMod p) ≠ 0 := by
      rw [Ne, ZMod.natCast_zmod_eq_zero_iff_dvd]
      intro hdvd
      have := Nat.le_of_dvd (by norm_num) hdvd
      have := hp.two_le
      omega
    exact_mod_cast h2
  have fibb : ∀ b ∈ T.erase 0,
      (Finset.univ.filter (fun z : ZMod p => z * z = b)).card = 2 := by
    intro b hb
    obtain ⟨hbne, hbT⟩ := Finset.mem_erase.mp hb
    obtain ⟨r, -, hr⟩ := Finset.mem_image.mp hbT
    have hrne : r ≠ 0 := by
      rintro rfl
      apply hbne
      rw [← hr]
      ring
    have hrneg : r ≠ -r := by
      intro he
      have h2r : (2 : ZMod p) * r = 0 := by
        have : r + r = 0 := by
          nth_rewrite 1 [he]
          ring
        rw [two_mul, this]
      rcases mul_eq_zero.mp h2r with h | h
      · exact h2ne h
      · exact hrne h
    have hfil : Finset.univ.filter (fun z : ZMod p => z * z = b) = {r, -r} := by
      ext z
      simp only [Finset.mem_filter, Finset.mem_univ, true_and, Finset.mem_insert,
        Finset.mem_singleton]
      rw [← hr, mul_self_eq_mul_self_iff]
    rw [hfil, Finset.card_insert_of_not_mem (by simpa using hrneg), Finset.card_singleton]
  have hsum : ∑ b ∈ T, (Finset.univ.filter (fun z : ZMod p => z * z = b)).card =
      1 + 2 * (T.card - 1) := by
    rw [← Finset.add_sum_erase T _ h0T, fib0,
      Finset.sum_congr rfl fibb, Finset.sum_const, smul_eq_mul,
      Finset.card_erase_of_mem h0T, Nat.mul_comm]
  have hT1 : 1 ≤ T.card := Finset.card_pos.mpr ⟨0, h0T⟩
  omega

/-- The embedded residue set has `(p+1)/2` elements for an odd prime `p`. -/
lemma card_quadratic_residues (p : ℕ) (hp : p.Prime) (hodd : p % 2 = 1) :
    (quadratic_residues p).card = (p + 1) / 2 := by
  haveI := Fact.mk hp
  haveI : NeZero p := ⟨hp.pos.ne'⟩
  classical
  have himg : quadratic_residues p =
      (Finset.univ.image (fun z : ZMod p => z * z)).image ZMod.val := by
    ext a
    constructor
    · intro ha
      have halt : a < p := Finset.mem_range.mp (Finset.mem_filter.mp ha).1
      obtain ⟨r, hr⟩ := (mem_quadratic_residues halt).mp ha
      refine Finset.mem_image.mpr ⟨(a : ZMod p), ?_, ZMod.val_cast_of_lt halt⟩
      exact Finset.mem_image.mpr ⟨r, Finset.mem_univ r, hr.symm⟩
    · intro ha
      obtain ⟨z, hzS, hza⟩ := Finset.mem_image.mp ha
      obtain ⟨x, -, hx⟩ := Finset.mem_image.mp hzS
      subst hza
      refine (mem_quadratic_residues (ZMod.val_lt z)).mpr ?_
      rw [ZMod.natCast_zmod_val]
      exact ⟨x, hx.symm⟩
  rw [himg, Finset.card_image_of_injective _ (ZMod.val_injective p),
    card_squares p hp hodd]

/-- For a prime `p ≡ 1 (mod 4)` the residue `p - 1` (that is, `-1`) is a
quadratic residue. -/
lemma pred_mem_quadratic_residues (p : ℕ) (hp : p.Prime) (h4 : p % 4 = 1) :
    p - 1 ∈ quadratic_residues p := by
  haveI := Fact.mk hp
  haveI : NeZero p := ⟨hp.pos.ne'⟩
  have h2 : 2 ≤ p := hp.two_le
  have hlt : p - 1 < p := by omega
  rw [mem_quadratic_residues hlt]
  have hcast : ((p - 1 : ℕ) : ZMod p) = -1 := by
    rw [Nat.cast_sub (by omega : 1 ≤ p), ZMod.natCast_self, Nat.cast_one]
    ring
  rw [hcast]
  exact ZMod.exists_sq_eq_neg_one_iff.mpr (by omega)

/-- Exactly `(p-1)/2` of the residues `0, …, p-2` are quadratic residues for a
prime `p ≡ 1 (mod 4)` (all of them except `p - 1` itself). -/
lemma card_qres_range_pred (p : ℕ) (hp : p.Prime) (h4 : p % 4 = 1) :
    ((Finset.range (p - 1)).filter (fun a => a ∈ quadratic_residues p)).card =
      (p - 1) / 2 := by
  have h2 : 2 ≤ p := hp.two_le
  have hsub : quadratic_residues p ⊆ Finset.range p := Finset.filter_subset _ _
  have heq : (Finset.range (p - 1)).filter (fun a => a ∈ quadratic_residues p) =
      (quadratic_residues p).erase (p - 1) := by
    ext a
    simp only [Finset.mem_filter, Finset.mem_range, Finset.mem_erase]
    constructor
    · rintro ⟨hlt, hmem⟩
      exact ⟨by omega, hmem⟩
    · rintro ⟨hne, hmem⟩
      have : a < p := Finset.mem_range.mp (hsub hmem)
      exact ⟨by omega, hmem⟩
  rw [heq, Finset.card_erase_of_mem (pred_mem_quadratic_residues p hp h4),
    card_quadratic_residues p hp (by omega)]
  omega

/-- Counting agreement pairs: the double sum of the XNOR indicator over an
`N × N` grid splits as (members)² + (non-members)². -/
lemma xnor_double_count (N : ℕ) (Q : Finset ℕ) :
    (∑ a ∈ Finset.range N, ∑ b ∈ Finset.range N,
        if ((a ∈ Q) ↔ (b ∈ Q)) then 1 else 0) =
      ((Finset.range N).filter (fun a => a ∈ Q)).card ^ 2 +
        ((Finset.range N).filter (fun a => ¬ a ∈ Q)).card ^ 2 := by
  classical
  set m := ((Finset.range N).filter (fun a => a ∈ Q)).card with hm
  set k := ((Finset.range N).filter (fun a => ¬ a ∈ Q)).card with hk
  have inner : ∀ a, (∑ b ∈ Finset.range N,
      if ((a ∈ Q) ↔ (b ∈ Q)) then 1 else 0) = if a ∈ Q then m else k := by
    intro a
    by_cases ha : a ∈ Q
    · rw [if_pos ha, hm, Finset.card_filter]
      refine Finset.sum_congr rfl fun b _ => ?_
      by_cases hb : b ∈ Q
      · rw [if_pos (by tauto), if_pos hb]
      · rw [if_neg (by tauto), if_neg hb]
    · rw [if_neg ha, hk, Finset.card_filter]
      refine Finset.sum_congr rfl fun b _ => ?_
      by_cases hb : b ∈ Q
      · rw [if_neg (by tauto), if_neg (by tauto)]
      · rw [if_pos (by tauto), if_pos hb]
  rw [Finset.sum_congr rfl fun a _ => inner a, Finset.sum_ite,
    Finset.sum_const, Finset.sum_const, smul_eq_mul, smul_eq_mul, ← hm, ← hk]
  ring

/-- Structural decomposition of the ones count: the first column contributes
`p - 1` ones, row zero contributes none, and the interior is the XNOR grid on
residues `0, …, p-2`. -/
lemma mura_ones_eq (p : ℕ) (hp1 : 1 ≤ p) :
    mura_ones p = (p - 1) +
      (∑ a ∈ Finset.range (p - 1), ∑ b ∈ Finset.range (p - 1),
        if ((a ∈ quadratic_residues p) ↔ (b ∈ quadratic_residues p)) then 1 else 0) := by
  classical
  obtain ⟨N, rfl⟩ : ∃ N, p = N + 1 := ⟨p - 1, by omega⟩
  have hNsub : N + 1 - 1 = N := by omega
  unfold mura_ones
  rw [Finset.card_filter, Finset.sum_product, hNsub]
  have hrow0 : ∀ j, squarepattern_entry (N + 1) 0 j = 0 := by
    intro j
    unfold squarepattern_entry
    by_cases hj : j = 0
    · rw [if_pos hj, if_neg (show ¬ (1 ≤ 0) by omega)]
    · rw [if_neg hj, if_pos rfl]
  have hcol : ∀ i, squarepattern_entry (N + 1) (i + 1) 0 = 1 := by
    intro i
    unfold squarepattern_entry
    rw [if_pos rfl, if_pos (show 1 ≤ i + 1 by omega)]
  have hinner : ∀ i j, (if squarepattern_entry (N + 1) (i + 1) (j + 1) = 1 then 1 else 0) =
      (if ((i ∈ quadratic_residues (N + 1)) ↔ (j ∈ quadratic_residues (N + 1)))
        then 1 else 0) := by
    intro i j
    unfold squarepattern_entry
    rw [if_neg (show ¬ (j + 1 = 0) by omega), if_neg (show ¬ (i + 1 = 0) by omega)]
    simp only [Nat.add_sub_cancel]
    by_cases h : (i ∈ quadratic_residues (N + 1)) ↔ (j ∈ quadratic_residues (N + 1))
    · rw [if_pos h, if_pos rfl]
    · rw [if_neg h, if_neg (show ¬ ((0 : ℕ) = 1) by omega)]
  rw [Finset.sum_range_succ']
  have houter0 : (∑ j ∈ Finset.range (N + 1),
      if squarepattern_entry (N + 1) 0 j = 1 then 1 else 0) = 0 := by
    refine Finset.sum_eq_zero fun j _ => ?_
    rw [hrow0, if_neg (show ¬ ((0 : ℕ) = 1) by omega)]
  have houter : ∀ i, (∑ j ∈ Finset.range (N + 1),
      if squarepattern_entry (N + 1) (i + 1) j = 1 then 1 else 0) =
      (∑ j ∈ Finset.range N,
        if ((i ∈ quadratic_residues (N + 1)) ↔ (j ∈ quadratic_residues (N + 1)))
          then 1 else 0) + 1 := by
    intro i
    rw [Finset.sum_range_succ']
    congr 1
    · exact Finset.sum_congr rfl fun j _ => hinner i j
    · rw [hcol, if_pos rfl]
  rw [houter0, Finset.sum_congr rfl fun i _ => houter i, Finset.sum_add_distrib,
    Finset.sum_const, smul_eq_mul, mul_one, Finset.card_range]
  omega

/-- C5: for every prime MURA length `p = 4*n_bits + 1`, the square pattern
generated by `squarepattern` (before upscaling) contains exactly `(p²-1)/2`
cells equal to one. -/
theorem mura_square_pattern_ones (n : ℕ) (hp : (4 * n + 1).Prime) :
    mura_ones (4 * n + 1) = ((4 * n + 1) ^ 2 - 1) / 2 := by
  have hn : 1 ≤ n := by
    rcases Nat.eq_zero_or_pos n with rfl | h
    · exact absurd hp (by decide)
    · exact h
  have h4 : (4 * n + 1) % 4 = 1 := by omega
  rw [mura_ones_eq (4 * n + 1) (by omega),
    xnor_double_count (4 * n + 1 - 1) (quadratic_residues (4 * n + 1))]
  have hm := card_qres_range_pred (4 * n + 1) hp h4
  have htot := Finset.filter_card_add_filter_neg_card_eq_card
    (s := Finset.range (4 * n + 1 - 1)) (p := fun a => a ∈ quadratic_residues (4 * n + 1))
  rw [Finset.card_range] at htot
  have hmv : ((Finset.range (4 * n + 1 - 1)).filter
      (fun a => a ∈ quadratic_residues (4 * n + 1))).card = 2 * n := by omega
  have hkv : ((Finset.range (4 * n + 1 - 1)).filter
      (fun a => ¬ a ∈ quadratic_residues (4 * n + 1))).card = 2 * n := by omega
  rw [hmv, hkv]
  have hsq : (4 * n + 1) ^ 2 = 16 * (n * n) + 8 * n + 1 := by ring
  have hsq2 : (2 * n) ^ 2 = 4 * (n * n) := by ring
  rw [hsq, hsq2]
  omega

/-- C5 witness: at `n_bits = 1` the length is the prime `5` and the pattern
has `(5² - 1)/2 = 12` ones. -/
theorem mura_square_pattern_ones_witness :
    (4 * 1 + 1).Prime ∧ mura_ones (4 * 1 + 1) = ((4 * 1 + 1) ^ 2 - 1) / 2 :=
  ⟨by decide, mura_square_pattern_ones 1 (by decide)⟩

/-! ## MultiLensArray: circle overlap test and greedy placement
(`no_circle_overlap` lines 374-388, `place_spheres_on_plane` lines 390-416).

Coordinates and radii are rationals (exact stand-ins for floats); the float
comparison `np.sqrt(dsq) < r + cr` is embedded as the equivalent rational
comparison `0 ≤ r + cr ∧ dsq < (r + cr)²` (a square root is below a bound
exactly when the radicand is below the squared bound and the bound is not
negative, the radicand being a sum of squares). -/

/-- A circle record `(x, y, r)` as stored by `MultiLensArray`. -/
abbrev Circle := ℚ × ℚ × ℚ

/-- One comparison of the loop body of `does_circle_overlap`:
`np.sqrt((x-cx)² + (y-cy)²) < r + cr`. -/
def circle_pair_overlap (x y r cx cy cr : ℚ) : Bool :=
  decide (0 ≤ r + cr ∧ (x - cx) ^ 2 + (y - cy) ^ 2 < (r + cr) ^ 2)

/-- Embedding of `MultiLensArray.does_circle_overlap`. -/
def does_circle_overlap (circles : List Circle) (x y r : ℚ) : Bool :=
  circles.any (fun c => circle_pair_overlap x y r c.1 c.2.1 c.2.2)

/-- Embedding of `MultiLensArray.no_circle_overlap`: every circle is tested
against the circles after it. -/
def no_circle_overlap : List Circle → Bool
  | [] => true
  | c :: rest => !does_circle_overlap rest c.1 c.2.1 c.2.2 && no_circle_overlap rest

/-- Attempt loop of `place_spheres_on_plane` for one radius: up to
`attempts` draws of a center `(x, y)` with `x, y ~ uniform(r, extent - r)`
(modelled from the spec: `np.random.uniform(a, b)` consumes one value `u k`
of the external global stream and returns `a + (b - a)·u k`), accepting the
first center that overlaps no previously placed circle. -/
def try_place (u : ℕ → ℚ) (width height r : ℚ) :
    ℕ → List Circle → ℕ → Option (ℚ × ℚ) × ℕ
  | 0, _, k => (none, k)
  | attempts + 1, placed, k =>
    let x := r + (width - r - r) * u k
    let y := r + (height - r - r) * u (k + 1)
    if does_circle_overlap placed x y r then
      try_place u width height r attempts placed (k + 2)
    else (some (x, y), k + 2)

/-- Main loop of `place_spheres_on_plane`: radii are processed in order; an
accepted circle is appended to the placed list, a radius whose attempts are
exhausted is dropped. -/
def place_loop (u : ℕ → ℚ) (width height : ℚ) (max_attempts : ℕ) :
    List ℚ → List Circle → ℕ → List Circle
  | [], placed, _ => placed
  | r :: rs, placed, k =>
    match try_place u width height r max_attempts placed k with
    | (some (x, y), k2) =>
        place_loop u width height max_attempts rs (placed ++ [(x, y, r)]) k2
    | (none, k2) => place_loop u width height max_attempts rs placed k2

/-- Embedding of `MultiLensArray.place_spheres_on_plane`: radii sorted in
decreasing order, then greedy placement. -/
def place_spheres_on_plane (u : ℕ → ℚ) (width height : ℚ) (radius : List ℚ)
    (max_attempts : ℕ) : List Circle :=
  place_loop u width height max_attempts
    (radius.mergeSort (fun a b => decide (b ≤ a))) [] 0

/-- The pairwise separation property claimed for accepted lens geometry: any
two distinct placed lenses have center distance at least the sum of their
radii. -/
def pairwise_min_dist (cs : List Circle) : Prop :=
  ∀ (i j : ℕ) (hi : i < cs.length) (hj : j < cs.length), i ≠ j →
    (((cs.get ⟨i, hi⟩).2.2 : ℝ) + ((cs.get ⟨j, hj⟩).2.2 : ℝ)) ≤
      Real.sqrt ((((cs.get ⟨i, hi⟩).1 : ℝ) - ((cs.get ⟨j, hj⟩).1 : ℝ)) ^ 2 +
        (((cs.get ⟨i, hi⟩).2.1 : ℝ) - ((cs.get ⟨j, hj⟩).2.1 : ℝ)) ^ 2)

lemma circle_pair_overlap_symm (x y r cx cy cr : ℚ) :
    circle_pair_overlap x y r cx cy cr = circle_pair_overlap cx cy cr x y r := by
  unfold circle_pair_overlap
  have e1 : r + cr = cr + r := add_comm r cr
  have e2 : (x - cx) ^ 2 + (y - cy) ^ 2 = (cx - x) ^ 2 + (cy - y) ^ 2 := by ring
  rw [e1, e2]

lemma does_circle_overlap_eq_false (cs : List Circle) (x y r : ℚ) :
    does_circle_overlap cs x y r = false ↔
      ∀ c ∈ cs, circle_pair_overlap x y r c.1 c.2.1 c.2.2 = false := by
  unfold does_circle_overlap
  simp [List.any_eq_false]

lemma no_circle_overlap_iff_pairwise (cs : List Circle) :
    no_circle_overlap cs = true ↔
      List.Pairwise (fun c d : Circle =>
        circle_pair_overlap c.1 c.2.1 c.2.2 d.1 d.2.1 d.2.2 = false) cs := by
  induction cs with
  | nil => simp [no_circle_overlap]
  | cons c rest ih =>
    rw [List.pairwise_cons, ← ih,
      show no_circle_overlap (c :: rest) =
        (!does_circle_overlap rest c.1 c.2.1 c.2.2 && no_circle_overlap rest) from rfl]
    rw [Bool.and_eq_true, Bool.not_eq_true']
    rw [does_circle_overlap_eq_false]

lemma no_circle_overlap_append (placed : List Circle) (x y r : ℚ)
    (h : no_circle_overlap placed = true)
    (hnew : does_circle_overlap placed x y r = false) :
    no_circle_overlap (placed ++ [(x, y, r)]) = true := by
  rw [no_circle_overlap_iff_pairwise] at h ⊢
  rw [List.pairwise_append]
  refine ⟨h, List.pairwise_singleton _ _, ?_⟩
  intro c hc d hd
  rw [List.mem_singleton] at hd
  subst hd
  have hthis := (does_circle_overlap_eq_false placed x y r).mp hnew c hc
  rw [circle_pair_overlap_symm] at hthis
  exact hthis

lemma try_place_sound (u : ℕ → ℚ) (w hgt r : ℚ) :
    ∀ (attempts : ℕ) (placed : List Circle) (k : ℕ) (x y : ℚ) (k2 : ℕ),
      try_place u w hgt r attempts placed k = (some (x, y), k2) →
      does_circle_overlap placed x y r = false := by
  intro attempts
  induction attempts with
  | zero =>
    intro placed k x y k2 he
    exact absurd he (by simp [try_place])
  | succ a ih =>
    intro placed k x y k2 he
    rw [try_place] at he
    rcases hov : does_circle_overlap placed (r + (w - r - r) * u k)
        (r + (hgt - r - r) * u (k + 1)) r with _ | _
    · rw [hov] at he
      simp only [Bool.false_eq_true, if_false, Prod.mk.injEq, Option.some.injEq] at he
      obtain ⟨⟨hx, hy⟩, -⟩ := he
      rw [← hx, ← hy]
      exact hov
    · rw [hov] at he
      simp only [if_true] at he
      exact ih placed (k + 2) x y k2 he

lemma place_loop_no_overlap (u : ℕ → ℚ) (w hgt : ℚ) (maxA : ℕ) :
    ∀ (rs : List ℚ) (placed : List Circle) (k : ℕ),
      no_circle_overlap placed = true →
      no_circle_overlap (place_loop u w hgt maxA rs placed k) = true := by
  intro rs
  induction rs with
  | nil =>
    intro placed k hp
    exact hp
  | cons r rs ih =>
    intro placed k hp
    rw [place_loop]
    rcases htp : try_place u w hgt r maxA placed k with ⟨res, k2⟩
    rcases res with _ | ⟨x, y⟩
    · exact ih placed k2 hp
    · exact ih (placed ++ [(x, y, r)]) k2
        (no_circle_overlap_append placed x y r hp (try_place_sound u w hgt r maxA placed k x y k2 htp))

lemma pair_overlap_false_iff_dist (c d : Circle) (hc : 0 ≤ c.2.2) (hd : 0 ≤ d.2.2) :
    circle_pair_overlap c.1 c.2.1 c.2.2 d.1 d.2.1 d.2.2 = false ↔
      ((c.2.2 : ℝ) + (d.2.2 : ℝ)) ≤
        Real.sqrt (((c.1 : ℝ) - (d.1 : ℝ)) ^ 2 + ((c.2.1 : ℝ) - (d.2.1 : ℝ)) ^ 2) := by
  unfold circle_pair_overlap
  rw [decide_eq_false_iff_not, not_and, not_lt]
  have hsum : (0 : ℚ) ≤ c.2.2 + d.2.2 := by linarith
  have hrad : (0 : ℝ) ≤ ((c.1 : ℝ) - (d.1 : ℝ)) ^ 2 + ((c.2.1 : ℝ) - (d.2.1 : ℝ)) ^ 2 := by
    positivity
  have hsumR : (0 : ℝ) ≤ (c.2.2 : ℝ) + (d.2.2 : ℝ) := by exact_mod_cast hsum
  rw [Real.le_sqrt hsumR hrad]
  constructor
  · intro h
    have hq : (c.2.2 + d.2.2) ^ 2 ≤ (c.1 - d.1) ^ 2 + (c.2.1 - d.2.1) ^ 2 := h hsum
    exact_mod_cast hq
  · intro h
    intro _
    have : ((c.2.2 + d.2.2 : ℚ) : ℝ) ^ 2 ≤
        (((c.1 - d.1 : ℚ) : ℝ)) ^ 2 + (((c.2.1 - d.2.1 : ℚ) : ℝ)) ^ 2 := by
      push_cast
      push_cast at h
      linarith
    exact_mod_cast this

/-- C6: accepted lens geometry never overlaps.  First component: the
`no_circle_overlap` check passed for an explicitly supplied geometry (the
fatal construction assert) holds exactly when every two distinct lenses have
center distance at least the sum of their radii.  Second component: the
greedy random placement returns a list that always passes that check,
whatever the random stream, plane size, radii and attempt budget. -/
theorem multi_lens_no_overlap :
    (∀ cs : List Circle, (∀ c ∈ cs, 0 ≤ c.2.2) →
      (no_circle_overlap cs = true ↔ pairwise_min_dist cs)) ∧
    (∀ (u : ℕ → ℚ) (w hgt : ℚ) (radius : List ℚ) (maxA : ℕ),
      no_circle_overlap (place_spheres_on_plane u w hgt radius maxA) = true) := by
  constructor
  · intro cs hnn
    rw [no_circle_overlap_iff_pairwise, List.pairwise_iff_get]
    constructor
    · intro h i j hi hj hne
      rcases Nat.lt_or_ge i j with hlt | hge
      · have := h ⟨i, hi⟩ ⟨j, hj⟩ hlt
        exact (pair_overlap_false_iff_dist _ _
          (hnn _ (cs.get_mem _ _)) (hnn _ (cs.get_mem _ _))).mp this
      · have hlt : j < i := by omega
        have := h ⟨j, hj⟩ ⟨i, hi⟩ hlt
        have hd := (pair_overlap_false_iff_dist _ _
          (hnn _ (cs.get_mem _ _)) (hnn _ (cs.get_mem _ _))).mp this
        have hsym : Real.sqrt (((cs.get ⟨j, hj⟩).1 - (cs.get ⟨i, hi⟩).1 : ℝ) ^ 2 +
            ((cs.get ⟨j, hj⟩).2.1 - (cs.get ⟨i, hi⟩).2.1 : ℝ) ^ 2) =
            Real.sqrt (((cs.get ⟨i, hi⟩).1 - (cs.get ⟨j, hj⟩).1 : ℝ) ^ 2 +
            ((cs.get ⟨i, hi⟩).2.1 - (cs.get ⟨j, hj⟩).2.1 : ℝ) ^ 2) := by
          congr 1
          ring
        rw [hsym] at hd
        linarith
    · intro h i j hij
      refine (pair_overlap_false_iff_dist _ _
        (hnn _ (cs.get_mem _ _)) (hnn _ (cs.get_mem _ _))).mpr ?_
      exact h i.1 j.1 i.2 j.2 (by omega)
  · intro u w hgt radius maxA
    exact place_loop_no_overlap u w hgt maxA _ [] 0 rfl

/-- C6 witness: two tangent unit circles at distance 2 pass the overlap
check and satisfy the distance property; the greedy placement invariant at a
concrete stream. -/
theorem multi_lens_no_overlap_witness :
    (∀ c ∈ [((0 : ℚ), (0 : ℚ), (1 : ℚ)), ((2 : ℚ), (0 : ℚ), (1 : ℚ))], 0 ≤ c.2.2) ∧
      (no_circle_overlap [((0 : ℚ), (0 : ℚ), (1 : ℚ)), ((2 : ℚ), (0 : ℚ), (1 : ℚ))] = true ↔
        pairwise_min_dist [((0 : ℚ), (0 : ℚ), (1 : ℚ)), ((2 : ℚ), (0 : ℚ), (1 : ℚ))]) :=
  ⟨by decide, multi_lens_no_overlap.1 _ (by decide)⟩

/-! ## MultiLensArray height map (`create_height_map` lines 432-438 and
`lens_contribution` lines 440-446)

Lens radii and center locations (in resampled pixel units, as passed by
`create_mask`) are rationals; the float square root `np.sqrt` is an arbitrary
function parameter `sqrtF : ℚ → ℚ` (everything proved below holds for every
interpretation of the square root, in particular the exact one).
`lens_contribution` is the code's early-return loop: the first lens whose disk
strictly contains the point wins and the loop returns immediately. -/

/-- Embedding of `MultiLensArray.lens_contribution` (`radius[idx]` paired with
`enumerate(locs)` and an early `return` on the first covering lens). -/
def lens_contribution (sqrtF : ℚ → ℚ) : List ℚ → List (ℚ × ℚ) → ℚ → ℚ → ℚ
  | [], _, _, _ => 0
  | r :: rs, locs, x, y =>
    match locs with
    | [] => 0
    | l :: ls =>
      if (x - l.1) ^ 2 + (y - l.2) ^ 2 < r ^ 2 then
        sqrtF (r ^ 2 - (x - l.1) ^ 2 - (y - l.2) ^ 2)
      else lens_contribution sqrtF rs ls x y

/-- One entry of the array built by `MultiLensArray.create_height_map`: the
uniform minimum substrate height plus the (feature-size scaled) cap height of
the lens contribution at the pixel center `(x + 0.5, y + 0.5)`. -/
def create_height_map_entry (sqrtF : ℚ → ℚ) (min_height feat : ℚ)
    (radius : List ℚ) (locs : List (ℚ × ℚ)) (x y : ℕ) : ℚ :=
  min_height + lens_contribution sqrtF radius locs (x + 1/2) (y + 1/2) * feat

/-- Stated from the claim's words, for comparison with the code: the
spherical-cap height `√(r² - dx² - dy²)` of the first placed lens (in
placement order) whose disk strictly covers the point, or `0` when no lens
covers it. -/
def first_covering_cap (sqrtF : ℚ → ℚ) (radius : List ℚ) (locs : List (ℚ × ℚ))
    (x y : ℚ) : ℚ :=
  match (radius.zip locs).find?
      (fun rl => decide ((x - rl.2.1) ^ 2 + (y - rl.2.2) ^ 2 < rl.1 ^ 2)) with
  | some rl => sqrtF (rl.1 ^ 2 - (x - rl.2.1) ^ 2 - (y - rl.2.2) ^ 2)
  | none => 0

lemma lens_contribution_eq_first_covering_cap (sqrtF : ℚ → ℚ) (radius : List ℚ)
    (locs : List (ℚ × ℚ)) (x y : ℚ) :
    lens_contribution sqrtF radius locs x y =
      first_covering_cap sqrtF radius locs x y := by
  induction radius generalizing locs with
  | nil => simp [lens_contribution, first_covering_cap]
  | cons r rs ih =>
    rcases locs with _ | ⟨l, ls⟩
    · simp [lens_contribution, first_covering_cap]
    · rw [show lens_contribution sqrtF (r :: rs) (l :: ls) x y =
          (if (x - l.1) ^ 2 + (y - l.2) ^ 2 < r ^ 2 then
            sqrtF (r ^ 2 - (x - l.1) ^ 2 - (y - l.2) ^ 2)
          else lens_contribution sqrtF rs ls x y) from rfl]
      unfold first_covering_cap
      rw [List.zip_cons_cons, List.find?_cons]
      by_cases hcov : (x - l.1) ^ 2 + (y - l.2) ^ 2 < r ^ 2
      · rw [if_pos hcov,
          show (decide ((x - (r, l).2.1) ^ 2 + (y - (r, l).2.2) ^ 2 < (r, l).1 ^ 2)) = true
            from decide_eq_true (by simpa using hcov)]
      · rw [if_neg hcov,
          show (decide ((x - (r, l).2.1) ^ 2 + (y - (r, l).2.2) ^ 2 < (r, l).1 ^ 2)) = false
            from decide_eq_false (by simpa using hcov), ih ls]
        rfl

/-- C7: every height-map entry equals the uniform minimum substrate height
plus the (pitch-scaled) spherical-cap height `√(r² - dx² - dy²)` of the first
placed lens whose disk strictly covers the pixel center, or plus nothing when
no lens covers it; later-placed covering lenses never contribute — for every
interpretation of the float square root. -/
theorem height_map_first_match (sqrtF : ℚ → ℚ) (min_height feat : ℚ)
    (radius : List ℚ) (locs : List (ℚ × ℚ)) (x y : ℕ) :
    create_height_map_entry sqrtF min_height feat radius locs x y =
      min_height + first_covering_cap sqrtF radius locs (x + 1/2) (y + 1/2) * feat := by
  unfold create_height_map_entry
  rw [lens_contribution_eq_first_covering_cap]

/-! ## CodedAperture upscaling and PSF shape
(`CodedAperture.create_mask` lines 203-227, `Mask.compute_psf` lines 155-172)

Arrays are modelled as a shape record with an entry function; the external
`resize` primitive returns an array of the requested shape with arbitrary
interpolated values (an arbitrary function), and the external
`angular_spectrum` propagator is an arbitrary function of the mask and
wavelength. -/

/-- Two-dimensional array of rationals. -/
structure Mat where
  rows : ℕ
  cols : ℕ
  entry : ℕ → ℕ → ℚ

/-- Three-dimensional array of rationals. -/
structure Arr3 where
  d1 : ℕ
  d2 : ℕ
  d3 : ℕ
  entry : ℕ → ℕ → ℕ → ℚ

/-- Embedding of `np.clip(·, 0, 1)`. -/
def np_clip01 (q : ℚ) : ℚ := min (max q 0) 1

/-- Embedding of `np.round` (round half to even, numpy's tie rule). -/
def np_round (q : ℚ) : ℤ :=
  if q - ⌊q⌋ < 1/2 then ⌊q⌋
  else if 1/2 < q - ⌊q⌋ then ⌊q⌋ + 1
  else if ⌊q⌋ % 2 = 0 then ⌊q⌋ else ⌊q⌋ + 1

/-- MLS branch of `create_mask`: `seq = max_len_seq(n_bits)[0]*2 - 1` mapped
over the external `max_len_seq` bits, then `h_r = np.r_[seq, seq]`. -/
def mls_h_r (bits : List ℤ) : List ℤ :=
  (bits.map (fun b => 2 * b - 1)) ++ (bits.map (fun b => 2 * b - 1))

/-- Raw MLS mask `(np.outer(h_r, h_r) + 1) / 2` before upscaling. -/
def mls_raw_mask (bits : List ℤ) : Mat :=
  let h := mls_h_r bits
  ⟨h.length, h.length,
    fun i j => (((h.getD i 0 : ℚ)) * ((h.getD j 0 : ℚ)) + 1) / 2⟩

/-- Upscaling branch of `create_mask`: the resized array (arbitrary values
`resized i j` of the requested shape, from the external resize primitive) is
clipped to `[0, 1]` and rounded. -/
def upscaled_mask (resized : ℕ → ℕ → ℚ) (resolution : ℕ × ℕ) : Mat :=
  ⟨resolution.1, resolution.2, fun i j => (np_round (np_clip01 (resized i j)) : ℚ)⟩

/-- Final mask of `create_mask`: upscale exactly when the requested resolution
differs from the raw pattern shape. -/
def coded_aperture_final_mask (raw : Mat) (resized : ℕ → ℕ → ℚ)
    (resolution : ℕ × ℕ) : Mat :=
  if resolution.1 ≠ raw.rows ∨ resolution.2 ≠ raw.cols then
    upscaled_mask resized resolution
  else raw

/-- Embedding of `Mask.compute_psf`: one slice per wavelength, each the
squared modulus of the externally propagated field, shaped
`resolution × number of wavelengths`. -/
def compute_psf (prop : Mat → ℚ → ℕ → ℕ → ℚ) (mask : Mat) (resolution : ℕ × ℕ)
    (wavelengths : List ℚ) : Arr3 :=
  ⟨resolution.1, resolution.2, wavelengths.length,
    fun i j k => (prop mask (wavelengths.getD k 0) i j) ^ 2⟩

/-- The default PSF wavelength list `[460e-9, 550e-9, 640e-9]`. -/
def psf_wavelength_default : List ℚ :=
  [460 / 1000000000, 550 / 1000000000, 640 / 1000000000]

/-- Clipping to `[0,1]` then rounding always lands on `0` or `1`. -/
lemma np_round_clip01_mem (q : ℚ) : np_round (np_clip01 q) = 0 ∨ np_round (np_clip01 q) = 1 := by
  set c := np_clip01 q with hc
  have hc0 : 0 ≤ c := by
    rw [hc]
    unfold np_clip01
    exact le_min (le_max_right q 0) (by norm_num)
  have hc1 : c ≤ 1 := by
    rw [hc]
    unfold np_clip01
    exact min_le_right _ _
  have hfl : ⌊c⌋ = 0 ∨ ⌊c⌋ = 1 := by
    have h0 : (0 : ℤ) ≤ ⌊c⌋ := by
      exact_mod_cast Int.le_floor.mpr (by exact_mod_cast hc0)
    have h1 : ⌊c⌋ ≤ 1 := by
      have := Int.floor_le_floor hc1
      simpa using this
    omega
  unfold np_round
  rcases hfl with h | h
  · rw [h]
    by_cases hlt : c - ((0 : ℤ) : ℚ) < 1/2
    · rw [if_pos hlt]
      exact Or.inl rfl
    · rw [if_neg hlt]
      by_cases hgt : 1/2 < c - ((0 : ℤ) : ℚ)
      · rw [if_pos hgt]
        exact Or.inr rfl
      · rw [if_neg hgt, if_pos (by omega)]
        exact Or.inl rfl
  · rw [h]
    have hcv : c = 1 := by
      have := Int.floor_le c
      rw [h] at this
      push_cast at this
      linarith
    rw [hcv]
    norm_num

/-- C8: whenever the requested resolution differs from the raw pattern shape,
the pattern is resampled to the requested resolution, clipped and rounded, so
the final mask is strictly binary whatever the external resize produced; in
particular an MLS pattern for `n_bits = 5` (31 sequence bits, so a 62×62 raw
mask) at resolution 64×64 yields a strictly binary 64×64 field, and the PSF
under the default three-wavelength design list has shape `(64, 64, 3)`. -/
theorem coded_aperture_binary_upscale (bits : List ℤ) (hbits : bits.length = 31)
    (resized : ℕ → ℕ → ℚ) (prop : Mat → ℚ → ℕ → ℕ → ℚ) :
    (∀ (rz : ℕ → ℕ → ℚ) (res : ℕ × ℕ),
      (upscaled_mask rz res).rows = res.1 ∧ (upscaled_mask rz res).cols = res.2 ∧
        ∀ i j, (upscaled_mask rz res).entry i j = 0 ∨ (upscaled_mask rz res).entry i j = 1) ∧
    ((coded_aperture_final_mask (mls_raw_mask bits) resized (64, 64)).rows = 64 ∧
      (coded_aperture_final_mask (mls_raw_mask bits) resized (64, 64)).cols = 64 ∧
      (∀ i j, (coded_aperture_final_mask (mls_raw_mask bits) resized (64, 64)).entry i j = 0 ∨
        (coded_aperture_final_mask (mls_raw_mask bits) resized (64, 64)).entry i j = 1) ∧
      (compute_psf prop (coded_aperture_final_mask (mls_raw_mask bits) resized (64, 64))
          (64, 64) psf_wavelength_default).d1 = 64 ∧
      (compute_psf prop (coded_aperture_final_mask (mls_raw_mask bits) resized (64, 64))
          (64, 64) psf_wavelength_default).d2 = 64 ∧
      (compute_psf prop (coded_aperture_final_mask (mls_raw_mask bits) resized (64, 64))
          (64, 64) psf_wavelength_default).d3 = 3) := by
  have hbin : ∀ (rz : ℕ → ℕ → ℚ) (res : ℕ × ℕ),
      (upscaled_mask rz res).rows = res.1 ∧ (upscaled_mask rz res).cols = res.2 ∧
        ∀ i j, (upscaled_mask rz res).entry i j = 0 ∨ (upscaled_mask rz res).entry i j = 1 := by
    intro rz res
    refine ⟨rfl, rfl, fun i j => ?_⟩
    rcases np_round_clip01_mem (rz i j) with h | h
    · exact Or.inl (by simp [upscaled_mask, h])
    · exact Or.inr (by simp [upscaled_mask, h])
  have hraw : (mls_raw_mask bits).rows = 62 ∧ (mls_raw_mask bits).cols = 62 := by
    constructor <;>
      simp [mls_raw_mask, mls_h_r, List.length_append, List.length_map, hbits]
  have hfinal : coded_aperture_final_mask (mls_raw_mask bits) resized (64, 64) =
      upscaled_mask resized (64, 64) := by
    unfold coded_aperture_final_mask
    rw [if_pos]
    left
    rw [hraw.1]
    omega
  refine ⟨hbin, ?_⟩
  rw [hfinal]
  obtain ⟨h1, h2, h3⟩ := hbin resized (64, 64)
  exact ⟨h1, h2, h3, rfl, rfl, rfl⟩

/-- C8 witness: a concrete 31-bit sequence, trivial resize output and trivial
propagator. -/
theorem coded_aperture_binary_upscale_witness :
    (List.replicate 31 (1 : ℤ)).length = 31 ∧
      (∀ (rz : ℕ → ℕ → ℚ) (res : ℕ × ℕ),
        (upscaled_mask rz res).rows = res.1 ∧ (upscaled_mask rz res).cols = res.2 ∧
          ∀ i j, (upscaled_mask rz res).entry i j = 0 ∨ (upscaled_mask rz res).entry i j = 1) ∧
      ((coded_aperture_final_mask (mls_raw_mask (List.replicate 31 (1 : ℤ)))
          (fun _ _ => 0) (64, 64)).rows = 64 ∧
        (coded_aperture_final_mask (mls_raw_mask (List.replicate 31 (1 : ℤ)))
          (fun _ _ => 0) (64, 64)).cols = 64 ∧
        (∀ i j, (coded_aperture_final_mask (mls_raw_mask (List.replicate 31 (1 : ℤ)))
            (fun _ _ => 0) (64, 64)).entry i j = 0 ∨
          (coded_aperture_final_mask (mls_raw_mask (List.replicate 31 (1 : ℤ)))
            (fun _ _ => 0) (64, 64)).entry i j = 1) ∧
        (compute_psf (fun _ _ _ _ => 0)
            (coded_aperture_final_mask (mls_raw_mask (List.replicate 31 (1 : ℤ)))
              (fun _ _ => 0) (64, 64)) (64, 64) psf_wavelength_default).d1 = 64 ∧
        (compute_psf (fun _ _ _ _ => 0)
            (coded_aperture_final_mask (mls_raw_mask (List.replicate 31 (1 : ℤ)))
              (fun _ _ => 0) (64, 64)) (64, 64) psf_wavelength_default).d2 = 64 ∧
        (compute_psf (fun _ _ _ _ => 0)
            (coded_aperture_final_mask (mls_raw_mask (List.replicate 31 (1 : ℤ)))
              (fun _ _ => 0) (64, 64)) (64, 64) psf_wavelength_default).d3 = 3) :=
  ⟨by decide, coded_aperture_binary_upscale (List.replicate 31 (1 : ℤ)) (by decide)
    (fun _ _ => 0) (fun _ _ _ _ => 0)⟩

/-! ## HeightVarying phase (`HeightVarying.get_phi` lines 655-658)

Phases involve `π`, so this section works in `ℝ`; `%` on floats is numpy's
`fmod` with the sign of the divisor, `x % m = x - m·⌊x/m⌋`. -/

/-- Embedding of the numpy float modulo operation. -/
noncomputable def np_fmod (x m : ℝ) : ℝ := x - m * ⌊x / m⌋

/-- Embedding of `HeightVarying.get_phi` applied to one height value:
`phi = (h · 2π(n-1)/λ) % 2π`. -/
noncomputable def get_phi (refractive_index wavelength h : ℝ) : ℝ :=
  np_fmod (h * (2 * Real.pi * (refractive_index - 1) / wavelength)) (2 * Real.pi)

/-- C9: for every height value, wavelength `λ > 0` and refractive index
`n > 1`, inverting the wrapped phase via `phase · λ / (2π(n-1))` reproduces
the original height up to an integer multiple of `λ/(n-1)` (the modulo-2π
wraps). -/
theorem height_varying_round_trip (n lam h : ℝ) (hlam : 0 < lam) (hn : 1 < n) :
    ∃ k : ℤ, get_phi n lam h * lam / (2 * Real.pi * (n - 1)) =
      h - (k : ℝ) * (lam / (n - 1)) := by
  refine ⟨⌊h * (2 * Real.pi * (n - 1) / lam) / (2 * Real.pi)⌋, ?_⟩
  unfold get_phi np_fmod
  have hpi : Real.pi ≠ 0 := Real.pi_ne_zero
  have hlam' : lam ≠ 0 := ne_of_gt hlam
  have hn' : n - 1 ≠ 0 := sub_ne_zero.mpr (ne_of_gt hn)
  field_simp
  ring

/-- C9 witness: at `n = 2`, `λ = 1`, `h = 1` the theorem applies (the wrap
count is then `k = 1`). -/
theorem height_varying_round_trip_witness :
    ∃ k : ℤ, get_phi 2 1 1 * 1 / (2 * Real.pi * (2 - 1)) =
      1 - (k : ℝ) * (1 / (2 - 1)) :=
  height_varying_round_trip 2 1 1 one_pos one_lt_two

/-! ## CodedAperture convolution matrices and simulation
(`get_conv_matrices` lines 262-285, `simulate` lines 287-323)

`np.resize` repeats the signature sequence cyclically; `scipy.linalg.circulant`
builds the square circulant matrix `C[i,j] = c[(i-j) mod n]`; the `[:, :k]`
column slice keeps `min k n` columns (numpy slicing never widens); matrix
multiplication is defined only when the inner dimensions agree (`Option`,
`none` modelling the runtime dimension-mismatch error of `multi_dot`); the
external shot-noise model is an arbitrary elementwise function applied when an
SNR is given. -/

/-- Embedding of `np.resize(v, n)`: cyclic repetition (or truncation) to
length `n`. -/
def np_resize (v : List ℚ) (n : ℕ) : List ℚ :=
  (List.range n).map (fun k => v.getD (k % v.length) 0)

/-- Embedding of `scipy.linalg.circulant`. -/
def circulant (c : List ℚ) : Mat :=
  ⟨c.length, c.length, fun i j => c.getD ((i + c.length - j % c.length) % c.length) 0⟩

/-- Column slice `[:, :k]` (numpy keeps at most the existing columns). -/
def mat_take_cols (m : Mat) (k : ℕ) : Mat := ⟨m.rows, min k m.cols, m.entry⟩

/-- Embedding of `CodedAperture.get_conv_matrices`. -/
def get_conv_matrices (col row : List ℚ) (resolution : ℕ × ℕ)
    (img_shape : ℕ × ℕ) : Mat × Mat :=
  (mat_take_cols (circulant (np_resize col resolution.1)) img_shape.1,
   mat_take_cols (circulant (np_resize row resolution.2)) img_shape.2)

/-- Matrix transpose. -/
def mat_transpose (m : Mat) : Mat := ⟨m.cols, m.rows, fun i j => m.entry j i⟩

/-- Matrix product, defined only when the inner dimensions agree. -/
def matmul (a b : Mat) : Option Mat :=
  if a.cols = b.rows then
    some ⟨a.rows, b.cols, fun i j => ∑ k ∈ Finset.range a.cols, a.entry i k * b.entry k j⟩
  else none

/-- Embedding of `multi_dot([P, img, Q.T])` for three factors. -/
def multi_dot3 (a b c : Mat) : Option Mat :=
  (matmul a b).bind (fun ab => matmul ab c)

/-- One color channel of a 3D image, as a matrix. -/
def arr3_channel (obj : Arr3) (c : ℕ) : Mat :=
  ⟨obj.d1, obj.d2, fun i j => obj.entry i j c⟩

/-- Embedding of `CodedAperture.simulate`: per-channel
`P @ img[:,:,c] @ Q.T`, stacked along the channel axis, with the external
shot-noise model applied elementwise when an SNR value is given. -/
def simulate (col row : List ℚ) (resolution : ℕ × ℕ) (obj : Arr3)
    (noise : ℚ → ℚ) (snr_db : Option ℚ) : Option Arr3 :=
  (multi_dot3 (get_conv_matrices col row resolution (obj.d1, obj.d2)).1
      (arr3_channel obj 0)
      (mat_transpose (get_conv_matrices col row resolution (obj.d1, obj.d2)).2)).map
    (fun m0 =>
      ⟨m0.rows, m0.cols, obj.d3, fun i j c =>
        let v := ((multi_dot3 (get_conv_matrices col row resolution (obj.d1, obj.d2)).1
            (arr3_channel obj c)
            (mat_transpose (get_conv_matrices col row resolution (obj.d1, obj.d2)).2)).map
          (fun m => m.entry i j)).getD 0
        match snr_db with
        | some _ => noise v
        | none => v⟩)

lemma np_resize_length (v : List ℚ) (n : ℕ) : (np_resize v n).length = n := by
  simp [np_resize]

lemma matmul_eq_some (a b : Mat) (h : a.cols = b.rows) :
    matmul a b = some ⟨a.rows, b.cols,
      fun i j => ∑ k ∈ Finset.range a.cols, a.entry i k * b.entry k j⟩ := by
  unfold matmul
  rw [if_pos h]

lemma matmul_eq_none (a b : Mat) (h : a.cols ≠ b.rows) : matmul a b = none := by
  unfold matmul
  rw [if_neg h]

lemma multi_dot3_dims (a b c : Mat) (hab : a.cols = b.rows) (hbc : b.cols = c.rows) :
    ∃ m, multi_dot3 a b c = some m ∧ m.rows = a.rows ∧ m.cols = c.cols := by
  unfold multi_dot3
  rw [matmul_eq_some a b hab, Option.some_bind,
    matmul_eq_some ⟨a.rows, b.cols,
      fun i j => ∑ k ∈ Finset.range a.cols, a.entry i k * b.entry k j⟩ c hbc]
  exact ⟨_, rfl, rfl, rfl⟩

lemma multi_dot3_none_left (a b c : Mat) (hab : a.cols ≠ b.rows) :
    multi_dot3 a b c = none := by
  unfold multi_dot3
  rw [matmul_eq_none a b hab, Option.none_bind]

lemma multi_dot3_none_right (a b c : Mat) (hab : a.cols = b.rows)
    (hbc : b.cols ≠ c.rows) : multi_dot3 a b c = none := by
  unfold multi_dot3
  rw [matmul_eq_some a b hab, Option.some_bind,
    matmul_eq_none ⟨a.rows, b.cols,
      fun i j => ∑ k ∈ Finset.range a.cols, a.entry i k * b.entry k j⟩ c hbc]

/-- The full property claimed for `get_conv_matrices` and `simulate` at a
mask resolution `(res0, res1)`: for an image that fits inside the resolution,
`P` has shape `(res0, h)` and `Q` shape `(res1, w)`, both built by cyclically
resizing the `col` / `row` signatures to the mask resolution, and `simulate`
returns a measurement of shape `(res0, res1, channels)`; for an image larger
than the resolution in either axis the matrix product is not defined and the
simulation fails. -/
def conv_sim_spec (col row : List ℚ) (res0 res1 : ℕ) : Prop :=
  (∀ h w : ℕ, h ≤ res0 → w ≤ res1 →
    (get_conv_matrices col row (res0, res1) (h, w)).1.rows = res0 ∧
    (get_conv_matrices col row (res0, res1) (h, w)).1.cols = h ∧
    (get_conv_matrices col row (res0, res1) (h, w)).2.rows = res1 ∧
    (get_conv_matrices col row (res0, res1) (h, w)).2.cols = w ∧
    (∀ i j, i < res0 → j < h →
      (get_conv_matrices col row (res0, res1) (h, w)).1.entry i j =
        (np_resize col res0).getD ((i + res0 - j) % res0) 0) ∧
    (∀ i j, i < res1 → j < w →
      (get_conv_matrices col row (res0, res1) (h, w)).2.entry i j =
        (np_resize row res1).getD ((i + res1 - j) % res1) 0)) ∧
  (∀ (obj : Arr3) (noise : ℚ → ℚ) (snr : Option ℚ), obj.d1 ≤ res0 → obj.d2 ≤ res1 →
    ∃ m, simulate col row (res0, res1) obj noise snr = some m ∧
      m.d1 = res0 ∧ m.d2 = res1 ∧ m.d3 = obj.d3) ∧
  (∀ (obj : Arr3) (noise : ℚ → ℚ) (snr : Option ℚ), res0 < obj.d1 ∨ res1 < obj.d2 →
    simulate col row (res0, res1) obj noise snr = none)

/-- C10: `get_conv_matrices` and `simulate` behave as described by
`conv_sim_spec` for every signature pair and mask resolution. -/
theorem coded_aperture_conv_shapes (col row : List ℚ) (res0 res1 : ℕ) :
    conv_sim_spec col row res0 res1 := by
  have hPQ : ∀ h w : ℕ,
      (get_conv_matrices col row (res0, res1) (h, w)).1.rows = res0 ∧
      (get_conv_matrices col row (res0, res1) (h, w)).1.cols = min h res0 ∧
      (get_conv_matrices col row (res0, res1) (h, w)).2.rows = res1 ∧
      (get_conv_matrices col row (res0, res1) (h, w)).2.cols = min w res1 := by
    intro h w
    unfold get_conv_matrices mat_take_cols circulant
    exact ⟨np_resize_length col res0, by rw [np_resize_length col res0],
      np_resize_length row res1, by rw [np_resize_length row res1]⟩
  refine ⟨?_, ?_, ?_⟩
  · intro h w hh hw
    obtain ⟨h1, h2, h3, h4⟩ := hPQ h w
    refine ⟨h1, by rw [h2]; omega, h3, by rw [h4]; omega, ?_, ?_⟩
    · intro i j hi hj
      show (np_resize col res0).getD
        ((i + (np_resize col res0).length - j % (np_resize col res0).length) %
          (np_resize col res0).length) 0 = _
      rw [np_resize_length col res0, Nat.mod_eq_of_lt (by omega : j < res0)]
    · intro i j hi hj
      show (np_resize row res1).getD
        ((i + (np_resize row res1).length - j % (np_resize row res1).length) %
          (np_resize row res1).length) 0 = _
      rw [np_resize_length row res1, Nat.mod_eq_of_lt (by omega : j < res1)]
  · intro obj noise snr hd1 hd2
    obtain ⟨h1, h2, h3, h4⟩ := hPQ obj.d1 obj.d2
    obtain ⟨m0, hm0, hr, hc⟩ := multi_dot3_dims
      (get_conv_matrices col row (res0, res1) (obj.d1, obj.d2)).1
      (arr3_channel obj 0)
      (mat_transpose (get_conv_matrices col row (res0, res1) (obj.d1, obj.d2)).2)
      (by
        show (get_conv_matrices col row (res0, res1) (obj.d1, obj.d2)).1.cols = obj.d1
        rw [h2]
        exact min_eq_left hd1)
      (by
        show obj.d2 = (get_conv_matrices col row (res0, res1) (obj.d1, obj.d2)).2.cols
        rw [h4]
        exact (min_eq_left hd2).symm)
    unfold simulate
    rw [hm0, Option.map_some']
    refine ⟨_, rfl, ?_, ?_, rfl⟩
    · exact hr.trans h1
    · exact hc.trans h3
  · intro obj noise snr hbig
    obtain ⟨h1, h2, h3, h4⟩ := hPQ obj.d1 obj.d2
    rcases Nat.lt_or_ge res0 obj.d1 with hlt | hge
    · have hnone := multi_dot3_none_left
        (get_conv_matrices col row (res0, res1) (obj.d1, obj.d2)).1
        (arr3_channel obj 0)
        (mat_transpose (get_conv_matrices col row (res0, res1) (obj.d1, obj.d2)).2)
        (by
          show (get_conv_matrices col row (res0, res1) (obj.d1, obj.d2)).1.cols ≠ obj.d1
          rw [h2]
          omega)
      unfold simulate
      rw [hnone]
      rfl
    · have hd2 : res1 < obj.d2 := by omega
      have hnone := multi_dot3_none_right
        (get_conv_matrices col row (res0, res1) (obj.d1, obj.d2)).1
        (arr3_channel obj 0)
        (mat_transpose (get_conv_matrices col row (res0, res1) (obj.d1, obj.d2)).2)
        (by
          show (get_conv_matrices col row (res0, res1) (obj.d1, obj.d2)).1.cols = obj.d1
          rw [h2]
          exact min_eq_left hge)
        (by
          show obj.d2 ≠ (get_conv_matrices col row (res0, res1) (obj.d1, obj.d2)).2.cols
          rw [h4]
          omega)
      unfold simulate
      rw [hnone]
      rfl

/-- C10 witness: concrete bipolar signatures on a 3×3 mask resolution. -/
theorem coded_aperture_conv_shapes_witness :
    conv_sim_spec [1, -1] [1, -1] 3 3 :=
  coded_aperture_conv_shapes [1, -1] [1, -1] 3 3

end LenslessMask
